import Mathlib

/-!
Shallow embedding of the Voxtral streaming speech-to-text ABI declared in
`src/transcribe/VoxtralBridge.h`.  The header only declares the C surface
(`vox_stream_init`, `vox_stream_feed`, `vox_stream_finish`, `vox_stream_get`,
`vox_stream_free`, `vox_set_processing_interval`, and the Metal lifecycle
`vox_metal_init` / `vox_metal_available` / `vox_metal_shutdown`); the
implementation `voxtral.c` is not part of the repository, so the session
state machine below is modelled from the specification (states Open, Sealed,
Drained, Failed, Freed; audio ring; chunker; decode engine; token queue).
The synchronous single-threaded implementation recommended by the spec is
modelled: `feed` appends to the ring and opportunistically decodes every
full window, `finish` seals the session, flushes the trailing partial
window and drains to the Drained state, `get` drains the token queue.
-/

/-- Modelled from the spec: a PCM audio sample (32-bit float at the ABI) is
treated as an opaque value; no floating-point arithmetic is performed on
samples in the session machinery, so an integer stands in for the value. -/
abbrev Sample := Int

/-- Modelled from the spec: a decoded token, a UTF-8 string. -/
abbrev Token := String

/-- Modelled from the spec: the session state machine states of §4.6:
Open (initial), Sealed (finish called, draining), Drained (all audio
decoded), Failed, Freed (terminal). -/
inductive SessState : Type
  | Open
  | Sealed
  | Drained
  | Failed
  | Freed
deriving DecidableEq

/-- Modelled from the spec: the Decode Engine of §4.4 (the implementation
`voxtral.c` is absent from the repository).  `step` is
`decode(window, rolling_state) → (tokens[], rolling_state')`, deterministic
for a given (context, window sequence, initial state); `flush` handles the
one trailing partial window at end-of-stream; `init` is the initial rolling
state.  The type `σ` is the rolling decoder state. -/
structure Decoder (σ : Type) where
  init : σ
  step : List Sample → σ → List Token × σ
  flush : List Sample → σ → List Token

/-- Modelled from the spec: a streaming session (§3).  `st` is the state
machine state; `W` is the window size in samples (processing interval ×
sample rate); `ring` holds the buffered, not-yet-decoded samples; `dec` is
the rolling decoder state; `queue` is the FIFO Token Queue of committed,
not yet delivered tokens; `delivered` records the tokens already returned
to the host by `vox_stream_get` (the ghost history used to state delivery
properties); `fedAny` records whether a first feed has happened (for the
`set_processing_interval` sequencing rule); `errFlag` is the session's
error flag set by feeds in a bad state. -/
structure Session (σ : Type) where
  st : SessState
  sampleRate : Nat
  capacitySeconds : ℚ
  interval : ℚ
  W : Nat
  ring : List Sample
  dec : σ
  queue : List Token
  delivered : List Token
  fedAny : Bool
  errFlag : Bool
deriving DecidableEq

/-- Modelled from the spec: the Chunker of §4.3 with zero overlap (the
overlap policy is implementation-defined; zero is the fixed per-session
choice made by this model).  With `fuel` an upper bound on the number of
samples, repeatedly removes a full window of `W` samples from the front of
`ring`, feeding each window to the decoder, until fewer than `W` samples
remain.  Returns the emitted tokens in order, the final rolling state and
the leftover samples.  Structural recursion on `fuel` keeps the definition
kernel-reducible. -/
def processFuel {σ : Type} (d : Decoder σ) (W : Nat) :
    Nat → List Sample → σ → List Token × σ × List Sample
  | 0, ring, s => ([], s, ring)
  | fuel+1, ring, s =>
    if 0 < W ∧ W ≤ ring.length then
      ((d.step (ring.take W) s).1 ++
         (processFuel d W fuel (ring.drop W) (d.step (ring.take W) s).2).1,
       (processFuel d W fuel (ring.drop W) (d.step (ring.take W) s).2).2)
    else ([], s, ring)

/-- Modelled from the spec: drain all full windows currently in the ring
through the decode engine (`ring.length` is always enough fuel since each
step consumes at least one sample). -/
def processRing {σ : Type} (d : Decoder σ) (W : Nat) (ring : List Sample) (s : σ) :
    List Token × σ × List Sample :=
  processFuel d W ring.length ring s

/-- Modelled from the spec: window size in samples for a processing
interval of `x` seconds at `rate` Hz. -/
def windowOf (rate : Nat) (x : ℚ) : Nat :=
  (Int.ceil (x * (rate : ℚ))).toNat

/-- Modelled from the spec: `vox_stream_init(ctx)` — a fresh session in the
Open state with empty ring and queue; the sample rate and ring capacity
come from the model context, the processing interval starts at its default. -/
def vox_stream_init {σ : Type} (d : Decoder σ) (rate : Nat) (cap iv : ℚ) : Session σ :=
  { st := .Open
    sampleRate := rate
    capacitySeconds := cap
    interval := iv
    W := windowOf rate iv
    ring := []
    dec := d.init
    queue := []
    delivered := []
    fedAny := false
    errFlag := false }

/-- Modelled from the spec: `vox_stream_feed(s, samples, n)` — §4.6: valid
only in Open (append to the ring, then advance the chunker
opportunistically); in Sealed/Drained the call is a no-op that sets the
error flag; in Failed it is ignored; feed with n = 0 is a no-op in every
state.  The list `samples` stands for the `n` samples at the pointer. -/
def vox_stream_feed {σ : Type} (d : Decoder σ) (s : Session σ) (samples : List Sample) :
    Session σ :=
  if samples = [] then s
  else
    match s.st with
    | .Open =>
      let p := processRing d s.W (s.ring ++ samples) s.dec
      { s with ring := p.2.2, dec := p.2.1, queue := s.queue ++ p.1, fedAny := true }
    | .Sealed => { s with errFlag := true }
    | .Drained => { s with errFlag := true }
    | .Failed => s
    | .Freed => s

/-- Modelled from the spec: the Open → Sealed transition of §4.6.  Seals
the stream: the chunker drains any remaining full windows, the decode
engine flushes the trailing partial window (if there is one), and the
session is marked Sealed with an empty ring. -/
def sealOpen {σ : Type} (d : Decoder σ) (s : Session σ) : Session σ :=
  let p := processRing d s.W s.ring s.dec
  let fin := if p.2.2 = [] then [] else d.flush p.2.2 p.2.1
  { s with st := .Sealed, ring := [], dec := p.2.1, queue := s.queue ++ p.1 ++ fin }

/-- Modelled from the spec: the Sealed → Drained transition of §4.6, taken
when the chunker reports EndOfStream (the ring is empty) and the decode
engine has produced its final tokens. -/
def finishDrain {σ : Type} (s : Session σ) : Session σ :=
  if s.st = .Sealed ∧ s.ring = [] then { s with st := .Drained } else s

/-- Modelled from the spec: `vox_stream_finish(s)` — idempotent; from Open
it seals the session and, the synchronous chunker having reached
EndOfStream within the call, immediately takes the Sealed → Drained
transition; in every other state it is a no-op. -/
def vox_stream_finish {σ : Type} (d : Decoder σ) (s : Session σ) : Session σ :=
  if s.st = .Open then finishDrain (sealOpen d s) else s

/-- Modelled from the spec: `vox_stream_get(s, out_tokens, max)` — valid in
all non-Freed states; copies up to `max` token references from the front of
the Token Queue into the host buffer, removes them from the queue, and
returns them (the count at the ABI is the length of the returned list).
`max` is a signed int at the ABI; a non-positive `max` copies nothing. -/
def vox_stream_get {σ : Type} (s : Session σ) (max : Int) : List Token × Session σ :=
  if s.st = .Freed then ([], s)
  else
    let k := max.toNat
    let out := s.queue.take k
    (out, { s with queue := s.queue.drop k, delivered := s.delivered ++ out })

/-- Modelled from the spec: `vox_stream_free(s)` — any → Freed; the
session's ring and queue are released. -/
def vox_stream_free {σ : Type} (s : Session σ) : Session σ :=
  { s with st := .Freed, ring := [], queue := [] }

/-- Modelled from the spec: the error taxonomy of §7 (the members the
session-configuration claims need). -/
inductive VoxError : Type
  | ConfigError
  | SequenceError
deriving DecidableEq

/-- Modelled from the spec: `vox_set_processing_interval(s, seconds)` —
an interval ≤ 0 is rejected with ConfigError; the call is valid only in
Open and before the first feed (otherwise SequenceError, the documented
policy choice (a) of §4.6); a value exceeding the ring's capacity in
seconds is clamped to that upper bound (the documented clamping policy).
Seconds (a C float at the ABI) are modelled as rationals. -/
def vox_set_processing_interval {σ : Type} (s : Session σ) (x : ℚ) :
    Session σ × Option VoxError :=
  if x ≤ 0 then (s, some .ConfigError)
  else if s.st = .Open ∧ s.fedAny = false then
    let y := min x s.capacitySeconds
    ({ s with interval := y, W := windowOf s.sampleRate y }, none)
  else (s, some .SequenceError)

/-- Modelled from the spec: `vox_metal_init()` — attempts to initialize the
process-wide Metal subsystem; returns 0 on success (the subsystem becomes
available) or a negative error code on failure (the state is unchanged).
The Boolean `ok` abstracts whether the platform initialization succeeds;
the Boolean state is "initialized and not shut down since". -/
def vox_metal_init (ok : Bool) (st : Bool) : Int × Bool :=
  if ok then (0, true) else (-1, st)

/-- Modelled from the spec: `vox_metal_available()` — non-zero iff an init
has succeeded and shutdown has not been called since. -/
def vox_metal_available (st : Bool) : Int :=
  if st then 1 else 0

/-- Modelled from the spec: `vox_metal_shutdown()` — tears the subsystem
down; idempotent. -/
def vox_metal_shutdown (_st : Bool) : Bool :=
  false

/-- Modelled from the spec: a call on the process-wide Metal lifecycle. -/
inductive MetalOp : Type
  | minit (ok : Bool)
  | mshutdown
deriving DecidableEq

/-- Modelled from the spec: run a sequence of Metal lifecycle calls from a
given process-wide state. -/
def metalRun : Bool → List MetalOp → Bool
  | st, [] => st
  | st, .minit ok :: ops => metalRun (vox_metal_init ok st).2 ops
  | st, .mshutdown :: ops => metalRun (vox_metal_shutdown st) ops

/-- Modelled from the spec: a host call on one streaming session (the calls
the temporal claims quantify over). -/
inductive Op : Type
  | feed (samples : List Sample)
  | finish
  | get (max : Int)
  | setInterval (x : ℚ)
  | free
deriving DecidableEq

/-- Whether an `Op` is a feed or a get call. -/
def Op.isFeedGet : Op → Bool
  | .feed _ => true
  | .get _ => true
  | _ => false

/-- Run one host call; the second component is the token list the call
returned to the host (empty for every call but `get`). -/
def runOp {σ : Type} (d : Decoder σ) (s : Session σ) : Op → Session σ × List Token
  | .feed xs => (vox_stream_feed d s xs, [])
  | .finish => (vox_stream_finish d s, [])
  | .get m =>
    let p := vox_stream_get s m
    (p.2, p.1)
  | .setInterval x => ((vox_set_processing_interval s x).1, [])
  | .free => (vox_stream_free s, [])

/-- Run a sequence of host calls, concatenating the tokens returned to the
host across the calls. -/
def runOps {σ : Type} (d : Decoder σ) (s : Session σ) : List Op → Session σ × List Token
  | [] => (s, [])
  | op :: ops =>
    let p := runOp d s op
    let q := runOps d p.1 ops
    (q.1, p.2 ++ q.2)

/-- The concatenation of all samples fed by a trace of host calls. -/
def fedOf : List Op → List Sample
  | [] => []
  | .feed xs :: ops => xs ++ fedOf ops
  | .finish :: ops => fedOf ops
  | .get _ :: ops => fedOf ops
  | .setInterval _ :: ops => fedOf ops
  | .free :: ops => fedOf ops

/-- The committed token stream for a given total audio stream: the tokens
the decode engine emits on the full windows of the audio fed so far
(§4.4–§4.5; no end-of-stream flush, since the session is still Open). -/
def committedOf {σ : Type} (d : Decoder σ) (W : Nat) (audio : List Sample) : List Token :=
  (processRing d W audio d.init).1

/-- The committed token stream after finish: full windows plus the
end-of-stream flush of the trailing partial window, if any. -/
def finalTokensOf {σ : Type} (d : Decoder σ) (W : Nat) (audio : List Sample) : List Token :=
  let p := processRing d W audio d.init
  p.1 ++ (if p.2.2 = [] then [] else d.flush p.2.2 p.2.1)

/-- A concrete decode engine used to exercise the theorems on closed
inputs: the rolling state counts decoded windows, each window emits one
numbered token, and the end-of-stream flush emits one marked token. -/
def dEx : Decoder Nat :=
  { init := 0
    step := fun _ n => ([toString n], n + 1)
    flush := fun _ n => [toString n ++ "f"] }

/-- A concrete fresh session at 16 kHz, 4-second ring capacity, 1-second
processing interval. -/
def sEx : Session Nat :=
  vox_stream_init dEx 16000 4 1

/-- A concrete session with a tiny window (2 samples) mid-stream: Open,
one buffered sample, a queued committed token and one already-delivered
token. -/
def sOpenEx : Session Nat :=
  { st := .Open
    sampleRate := 2
    capacitySeconds := 4
    interval := 1
    W := 2
    ring := [5]
    dec := 3
    queue := ["q"]
    delivered := ["d"]
    fedAny := true
    errFlag := false }

/-- A concrete Drained session holding three undelivered committed
tokens. -/
def sDrainedEx : Session Nat :=
  { st := .Drained
    sampleRate := 16000
    capacitySeconds := 4
    interval := 1
    W := 16000
    ring := []
    dec := 7
    queue := ["a", "b", "c"]
    delivered := []
    fedAny := true
    errFlag := false }

/-- A concrete Sealed session (used to exercise the feed guards). -/
def sSealedEx : Session Nat :=
  { sDrainedEx with st := .Sealed }

/-- A concrete Failed session (used to exercise the feed guards). -/
def sFailedEx : Session Nat :=
  { sDrainedEx with st := .Failed }

/-- The reachability invariant tying a live Open session to the audio `A`
fed so far: the window size is `W`, the ring and rolling decoder state are
exactly what the chunker leaves after consuming `A`, and the tokens
delivered so far followed by the queued tokens are exactly the committed
stream for `A`. -/
def Coherent {σ : Type} (d : Decoder σ) (W : Nat) (A : List Sample) (s : Session σ) : Prop :=
  s.st = .Open ∧ s.W = W ∧
  s.ring = (processRing d W A d.init).2.2 ∧
  s.dec = (processRing d W A d.init).2.1 ∧
  s.delivered ++ s.queue = committedOf d W A

/-! Core lemmas about the chunker. -/

/-- The chunker does nothing on an empty ring, whatever the fuel. -/
theorem processFuel_nil {σ : Type} (d : Decoder σ) (W : Nat) (f : Nat) (s : σ) :
    processFuel d W f [] s = ([], s, []) := by
  cases f with
  | zero => rfl
  | succ f =>
    have h : ¬(0 < W ∧ W ≤ ([] : List Sample).length) := by
      simp only [List.length_nil]
      omega
    simp only [processFuel, if_neg h]

/-- The chunker's result does not depend on the fuel, as long as the fuel
covers the ring. -/
theorem processFuel_congr {σ : Type} (d : Decoder σ) (W : Nat) :
    ∀ (f₁ f₂ : Nat) (ring : List Sample) (s : σ),
      ring.length ≤ f₁ → ring.length ≤ f₂ →
      processFuel d W f₁ ring s = processFuel d W f₂ ring s := by
  intro f₁
  induction f₁ with
  | zero =>
    intro f₂ ring s h1 _
    have hr : ring = [] := List.eq_nil_of_length_eq_zero (Nat.le_zero.mp h1)
    subst hr
    rw [processFuel_nil, processFuel_nil]
  | succ f₁ ih =>
    intro f₂ ring s h1 h2
    cases f₂ with
    | zero =>
      have hr : ring = [] := List.eq_nil_of_length_eq_zero (Nat.le_zero.mp h2)
      subst hr
      rw [processFuel_nil, processFuel_nil]
    | succ f₂ =>
      by_cases hc : 0 < W ∧ W ≤ ring.length
      · simp only [processFuel, if_pos hc]
        rw [ih f₂ (ring.drop W) (d.step (ring.take W) s).2
            (by simp only [List.length_drop]; omega)
            (by simp only [List.length_drop]; omega)]
      · simp only [processFuel, if_neg hc]

/-- The chunker does nothing on an empty ring. -/
theorem processRing_nil {σ : Type} (d : Decoder σ) (W : Nat) (s : σ) :
    processRing d W [] s = ([], s, []) := rfl

/-- One-step unfolding of `processRing`: decode one full window and recurse
on the rest, or stop when no full window remains. -/
theorem processRing_eq {σ : Type} (d : Decoder σ) (W : Nat) (ring : List Sample) (s : σ) :
    processRing d W ring s =
      if 0 < W ∧ W ≤ ring.length then
        ((d.step (ring.take W) s).1 ++
           (processRing d W (ring.drop W) (d.step (ring.take W) s).2).1,
         (processRing d W (ring.drop W) (d.step (ring.take W) s).2).2)
      else ([], s, ring) := by
  by_cases hc : 0 < W ∧ W ≤ ring.length
  · rw [if_pos hc]
    obtain ⟨hW, hle⟩ := hc
    have hlen : 0 < ring.length := lt_of_lt_of_le hW hle
    obtain ⟨n, hn⟩ : ∃ n, ring.length = n + 1 := ⟨ring.length - 1, by omega⟩
    show processFuel d W ring.length ring s = _
    rw [hn]
    simp only [processFuel, if_pos (And.intro hW hle)]
    rw [processFuel_congr d W n (ring.drop W).length (ring.drop W)
        (d.step (ring.take W) s).2
        (by simp only [List.length_drop]; omega) le_rfl]
    rfl
  · rw [if_neg hc]
    show processFuel d W ring.length ring s = _
    cases hn : ring.length with
    | zero =>
      have hr : ring = [] := List.eq_nil_of_length_eq_zero hn
      subst hr
      rfl
    | succ n =>
      rw [← hn]
      have : ring.length = n + 1 := hn
      rw [this]
      simp only [processFuel, if_neg hc]

/-- Splitting the audio stream: chunking `xs ++ ys` is the same as
chunking `xs` and then chunking its leftover followed by `ys`, starting
from the rolling state `xs` produced.  This is the heart of the
feed-chunking-invariance property. -/
theorem processRing_append {σ : Type} (d : Decoder σ) (W : Nat) :
    ∀ (xs ys : List Sample) (s : σ),
      processRing d W (xs ++ ys) s =
        ((processRing d W xs s).1 ++
           (processRing d W ((processRing d W xs s).2.2 ++ ys)
             (processRing d W xs s).2.1).1,
         (processRing d W ((processRing d W xs s).2.2 ++ ys)
           (processRing d W xs s).2.1).2) := by
  suffices H : ∀ (n : Nat) (xs ys : List Sample) (s : σ), xs.length ≤ n →
      processRing d W (xs ++ ys) s =
        ((processRing d W xs s).1 ++
           (processRing d W ((processRing d W xs s).2.2 ++ ys)
             (processRing d W xs s).2.1).1,
         (processRing d W ((processRing d W xs s).2.2 ++ ys)
           (processRing d W xs s).2.1).2) by
    intro xs ys s
    exact H xs.length xs ys s le_rfl
  intro n
  induction n with
  | zero =>
    intro xs ys s h1
    have hr : xs = [] := List.eq_nil_of_length_eq_zero (Nat.le_zero.mp h1)
    subst hr
    simp [processRing_nil]
  | succ n ih =>
    intro xs ys s h1
    by_cases hc : 0 < W ∧ W ≤ xs.length
    · obtain ⟨hW, hle⟩ := hc
      have hc2 : 0 < W ∧ W ≤ (xs ++ ys).length := by
        constructor
        · exact hW
        · simp only [List.length_append]
          omega
      rw [processRing_eq d W (xs ++ ys) s, if_pos hc2,
        List.take_append_of_le_length hle, List.drop_append_of_le_length hle]
      rw [processRing_eq d W xs s, if_pos (And.intro hW hle)]
      rw [ih (xs.drop W) ys (d.step (xs.take W) s).2
          (by simp only [List.length_drop]; omega)]
      simp [List.append_assoc]
    · rw [processRing_eq d W xs s, if_neg hc]
      simp

/-- The leftover the chunker returns never contains a full window. -/
theorem processRing_leftover {σ : Type} (d : Decoder σ) (W : Nat) :
    ∀ (ring : List Sample) (s : σ),
      ¬(0 < W ∧ W ≤ (processRing d W ring s).2.2.length) := by
  suffices H : ∀ (n : Nat) (ring : List Sample) (s : σ), ring.length ≤ n →
      ¬(0 < W ∧ W ≤ (processRing d W ring s).2.2.length) by
    intro ring s
    exact H ring.length ring s le_rfl
  intro n
  induction n with
  | zero =>
    intro ring s h1
    have hr : ring = [] := List.eq_nil_of_length_eq_zero (Nat.le_zero.mp h1)
    subst hr
    rw [processRing_nil]
    simp only [List.length_nil]
    omega
  | succ n ih =>
    intro ring s h1
    by_cases hc : 0 < W ∧ W ≤ ring.length
    · rw [processRing_eq d W ring s, if_pos hc]
      exact ih (ring.drop W) (d.step (ring.take W) s).2
        (by simp only [List.length_drop]; omega)
    · rw [processRing_eq d W ring s, if_neg hc]
      exact hc

/-- Running the chunker again on its own leftover does nothing. -/
theorem processRing_stable {σ : Type} (d : Decoder σ) (W : Nat)
    (ring : List Sample) (s : σ) :
    processRing d W (processRing d W ring s).2.2 (processRing d W ring s).2.1 =
      ([], (processRing d W ring s).2.1, (processRing d W ring s).2.2) := by
  rw [processRing_eq, if_neg (processRing_leftover d W ring s)]

/-! Session-level lemmas. -/

/-- Feeding never touches the delivered-token history. -/
theorem vox_stream_feed_delivered {σ : Type} (d : Decoder σ) (s : Session σ)
    (xs : List Sample) :
    (vox_stream_feed d s xs).delivered = s.delivered := by
  unfold vox_stream_feed
  split
  · rfl
  · cases s.st <;> rfl

/-- Feeding a nonempty sample list into an Open session: append to the
ring, then advance the chunker over every full window. -/
theorem vox_stream_feed_open {σ : Type} (d : Decoder σ) (s : Session σ)
    (xs : List Sample) (hst : s.st = .Open) (hx : xs ≠ []) :
    vox_stream_feed d s xs =
      { s with ring := (processRing d s.W (s.ring ++ xs) s.dec).2.2,
               dec := (processRing d s.W (s.ring ++ xs) s.dec).2.1,
               queue := s.queue ++ (processRing d s.W (s.ring ++ xs) s.dec).1,
               fedAny := true } := by
  unfold vox_stream_feed
  rw [if_neg hx, hst]

/-- Feeding an empty sample list is a no-op in every state. -/
theorem vox_stream_feed_nil {σ : Type} (d : Decoder σ) (s : Session σ) :
    vox_stream_feed d s [] = s := by
  unfold vox_stream_feed
  rw [if_pos rfl]

/-- Feeding preserves the reachability invariant, extending the fed audio. -/
theorem coherent_feed {σ : Type} (d : Decoder σ) (W : Nat) (A : List Sample)
    (s : Session σ) (xs : List Sample) (h : Coherent d W A s) :
    Coherent d W (A ++ xs) (vox_stream_feed d s xs) := by
  obtain ⟨hst, hW, hring, hdec, hq⟩ := h
  by_cases hx : xs = []
  · subst hx
    rw [vox_stream_feed_nil, List.append_nil]
    exact ⟨hst, hW, hring, hdec, hq⟩
  · rw [vox_stream_feed_open d s xs hst hx]
    refine ⟨hst, hW, ?_, ?_, ?_⟩
    · show (processRing d s.W (s.ring ++ xs) s.dec).2.2 = _
      rw [hW, hring, hdec, processRing_append d W A xs d.init]
    · show (processRing d s.W (s.ring ++ xs) s.dec).2.1 = _
      rw [hW, hring, hdec, processRing_append d W A xs d.init]
    · show s.delivered ++ (s.queue ++ (processRing d s.W (s.ring ++ xs) s.dec).1) =
        committedOf d W (A ++ xs)
      unfold committedOf at hq ⊢
      rw [hW, hring, hdec, processRing_append d W A xs d.init, ← List.append_assoc, hq]

/-- Getting preserves the reachability invariant and appends exactly the
returned tokens to the delivered history. -/
theorem coherent_get {σ : Type} (d : Decoder σ) (W : Nat) (A : List Sample)
    (s : Session σ) (m : Int) (h : Coherent d W A s) :
    Coherent d W A (vox_stream_get s m).2 ∧
    (vox_stream_get s m).2.delivered = s.delivered ++ (vox_stream_get s m).1 := by
  obtain ⟨hst, hW, hring, hdec, hq⟩ := h
  have hnf : ¬s.st = .Freed := by
    rw [hst]
    intro hcon
    exact SessState.noConfusion hcon
  unfold vox_stream_get
  rw [if_neg hnf]
  refine ⟨⟨hst, hW, hring, hdec, ?_⟩, rfl⟩
  show (s.delivered ++ s.queue.take m.toNat) ++ s.queue.drop m.toNat = _
  rw [List.append_assoc, List.take_append_drop]
  exact hq

/-- Running any trace of feed and get calls from a coherent session keeps
it coherent for the extended audio stream, and the tokens the trace
returned are exactly what it appended to the delivered history. -/
theorem coherent_runOps {σ : Type} (d : Decoder σ) (W : Nat) :
    ∀ (ops : List Op) (A : List Sample) (s : Session σ),
      (∀ op ∈ ops, op.isFeedGet = true) → Coherent d W A s →
      Coherent d W (A ++ fedOf ops) (runOps d s ops).1 ∧
      (runOps d s ops).1.delivered = s.delivered ++ (runOps d s ops).2 := by
  intro ops
  induction ops with
  | nil =>
    intro A s _ h
    refine ⟨?_, ?_⟩
    · simpa [runOps, fedOf] using h
    · simp [runOps]
  | cons op ops ih =>
    intro A s hfg h
    have hop : op.isFeedGet = true := hfg op (by simp)
    have hops : ∀ op' ∈ ops, op'.isFeedGet = true := fun op' h' => hfg op' (by simp [h'])
    cases op with
    | feed xs =>
      have h1 : Coherent d W (A ++ xs) (vox_stream_feed d s xs) := coherent_feed d W A s xs h
      have h2 := ih (A ++ xs) (vox_stream_feed d s xs) hops h1
      constructor
      · simpa [runOps, runOp, fedOf, List.append_assoc] using h2.1
      · simp [runOps, runOp, h2.2, vox_stream_feed_delivered]
    | get m =>
      have h1 := coherent_get d W A s m h
      have h2 := ih A (vox_stream_get s m).2 hops h1.1
      constructor
      · simpa [runOps, runOp, fedOf] using h2.1
      · simp [runOps, runOp, h2.2, h1.2, List.append_assoc]
    | finish => simp [Op.isFeedGet] at hop
    | setInterval x => simp [Op.isFeedGet] at hop
    | free => simp [Op.isFeedGet] at hop

/-- A fresh session is coherent for the empty audio stream. -/
theorem coherent_init {σ : Type} (d : Decoder σ) (rate : Nat) (cap iv : ℚ) :
    Coherent d (windowOf rate iv) [] (vox_stream_init d rate cap iv) := by
  refine ⟨rfl, rfl, ?_, ?_, ?_⟩ <;>
    simp [vox_stream_init, processRing_nil, committedOf]

/-- Finishing a coherent session lands in Drained, leaves the delivered
history alone, and makes delivered-plus-queue the full post-finish
committed stream for the audio fed. -/
theorem vox_stream_finish_open {σ : Type} (d : Decoder σ) (s : Session σ)
    (hst : s.st = .Open) :
    vox_stream_finish d s =
      { s with st := .Drained, ring := [],
               dec := (processRing d s.W s.ring s.dec).2.1,
               queue := s.queue ++ (processRing d s.W s.ring s.dec).1 ++
                 (if (processRing d s.W s.ring s.dec).2.2 = [] then []
                  else d.flush (processRing d s.W s.ring s.dec).2.2
                    (processRing d s.W s.ring s.dec).2.1) } := by
  unfold vox_stream_finish sealOpen finishDrain
  rw [if_pos hst]
  rfl

theorem finish_coherent {σ : Type} (d : Decoder σ) (W : Nat) (A : List Sample)
    (s : Session σ) (h : Coherent d W A s) :
    (vox_stream_finish d s).st = .Drained ∧
    s.delivered ++ (vox_stream_finish d s).queue = finalTokensOf d W A ∧
    (vox_stream_finish d s).delivered = s.delivered := by
  obtain ⟨hst, hW, hring, hdec, hq⟩ := h
  rw [vox_stream_finish_open d s hst]
  refine ⟨rfl, ?_, rfl⟩
  show s.delivered ++ (s.queue ++ (processRing d s.W s.ring s.dec).1 ++
      (if (processRing d s.W s.ring s.dec).2.2 = [] then []
       else d.flush (processRing d s.W s.ring s.dec).2.2
         (processRing d s.W s.ring s.dec).2.1)) =
    finalTokensOf d W A
  unfold committedOf at hq
  rw [hW, hring, hdec, processRing_stable]
  simp only [finalTokensOf, List.append_nil, ← List.append_assoc, hq]

/-- Running a concatenation of traces is running them in sequence; the
returned tokens concatenate. -/
theorem runOps_append {σ : Type} (d : Decoder σ) :
    ∀ (ops ops' : List Op) (s : Session σ),
      runOps d s (ops ++ ops') =
        ((runOps d (runOps d s ops).1 ops').1,
         (runOps d s ops).2 ++ (runOps d (runOps d s ops).1 ops').2) := by
  intro ops
  induction ops with
  | nil =>
    intro ops' s
    simp [runOps]
  | cons op ops ih =>
    intro ops' s
    simp [runOps, ih, List.append_assoc]

/-- A get call on a session with an empty queue returns no tokens and
leaves the session unchanged. -/
theorem vox_stream_get_empty {σ : Type} (s : Session σ) (hq : s.queue = [])
    (m : Int) :
    vox_stream_get s m = ([], s) := by
  unfold vox_stream_get
  split
  · rfl
  · rw [hq]
    simp only [List.take_nil, List.drop_nil, List.append_nil]
    rw [← hq]

/-- Any sequence of get calls on a session whose queue is empty returns no
tokens and keeps the queue empty. -/
theorem runOps_gets_empty {σ : Type} (d : Decoder σ) :
    ∀ (maxs : List Int) (s : Session σ), s.queue = [] →
      (runOps d s (maxs.map Op.get)).1.queue = [] ∧
      (runOps d s (maxs.map Op.get)).2 = [] := by
  intro maxs
  induction maxs with
  | nil =>
    intro s h
    exact ⟨h, rfl⟩
  | cons m maxs ih =>
    intro s h
    have hget := vox_stream_get_empty s h m
    have hrec := ih s h
    constructor
    · simp only [List.map_cons, runOps, runOp, hget]
      exact hrec.1
    · simp only [List.map_cons, runOps, runOp, hget]
      simpa using hrec.2

/-- The queue left behind by a get call on a non-Freed session. -/
theorem vox_stream_get_queue {σ : Type} (s : Session σ) (m : Int)
    (h : s.st ≠ .Freed) :
    (vox_stream_get s m).2.queue = s.queue.drop m.toNat := by
  unfold vox_stream_get
  rw [if_neg h]

/-- Finish is a no-op on a session that is not Open. -/
theorem vox_stream_finish_not_open {σ : Type} (d : Decoder σ) (s : Session σ)
    (h : s.st ≠ .Open) :
    vox_stream_finish d s = s := by
  unfold vox_stream_finish
  rw [if_neg h]

/-- Finish is idempotent on every session. -/
theorem vox_stream_finish_idem {σ : Type} (d : Decoder σ) (s : Session σ) :
    vox_stream_finish d (vox_stream_finish d s) = vox_stream_finish d s := by
  by_cases hst : s.st = .Open
  · apply vox_stream_finish_not_open
    rw [vox_stream_finish_open d s hst]
    intro hc
    exact SessState.noConfusion hc
  · rw [vox_stream_finish_not_open d s hst, vox_stream_finish_not_open d s hst]

/-- Finish never frees a session. -/
theorem vox_stream_finish_st_ne_freed {σ : Type} (d : Decoder σ) (s : Session σ)
    (h : s.st ≠ .Freed) :
    (vox_stream_finish d s).st ≠ .Freed := by
  by_cases hst : s.st = .Open
  · rw [vox_stream_finish_open d s hst]
    intro hc
    exact SessState.noConfusion hc
  · rw [vox_stream_finish_not_open d s hst]
    exact h

/-- Feeding a list of chunks feeds their concatenation. -/
theorem fedOf_feeds :
    ∀ chunks : List (List Sample), fedOf (chunks.map Op.feed) = chunks.flatten := by
  intro chunks
  induction chunks with
  | nil => rfl
  | cons c cs ih => simp [fedOf, ih]

/-- Feed calls return no tokens to the host. -/
theorem runOps_feeds_out {σ : Type} (d : Decoder σ) :
    ∀ (chunks : List (List Sample)) (s : Session σ),
      (runOps d s (chunks.map Op.feed)).2 = [] := by
  intro chunks
  induction chunks with
  | nil => intro s; rfl
  | cons c cs ih =>
    intro s
    simp [runOps, runOp, ih]

/-- Feeding a list of chunks and then finishing yields, as the queue, the
full committed token stream of the concatenated audio. -/
theorem feeds_then_finish_queue {σ : Type} (d : Decoder σ) (rate : Nat)
    (cap iv : ℚ) (chunks : List (List Sample)) :
    (runOps d (vox_stream_init d rate cap iv)
        (chunks.map Op.feed ++ [Op.finish])).1.queue =
      finalTokensOf d (windowOf rate iv) chunks.flatten := by
  have hfg : ∀ op ∈ chunks.map Op.feed, op.isFeedGet = true := by
    intro op hop
    simp only [List.mem_map] at hop
    obtain ⟨c, _, rfl⟩ := hop
    rfl
  have h2 := coherent_runOps d (windowOf rate iv) (chunks.map Op.feed) []
    (vox_stream_init d rate cap iv) hfg (coherent_init d rate cap iv)
  have hdel : (runOps d (vox_stream_init d rate cap iv) (chunks.map Op.feed)).1.delivered
      = [] := by
    rw [h2.2, runOps_feeds_out]
    rfl
  have hco : Coherent d (windowOf rate iv) chunks.flatten
      (runOps d (vox_stream_init d rate cap iv) (chunks.map Op.feed)).1 := by
    have h3 := h2.1
    rwa [List.nil_append, fedOf_feeds] at h3
  have h4 := finish_coherent d (windowOf rate iv) chunks.flatten _ hco
  rw [runOps_append]
  have h5 : (runOps d (runOps d (vox_stream_init d rate cap iv)
      (chunks.map Op.feed)).1 [Op.finish]).1
      = vox_stream_finish d (runOps d (vox_stream_init d rate cap iv)
        (chunks.map Op.feed)).1 := by
    simp [runOps, runOp]
  rw [h5]
  have h6 := h4.2.1
  rwa [hdel, List.nil_append] at h6

/-- Characterization of the Metal lifecycle over a trace: the subsystem is
up exactly when some successful init call is not followed by any shutdown. -/
theorem metalRun_spec :
    ∀ (ops : List MetalOp) (st : Bool),
      metalRun st ops = true ↔
      ((∃ l r, ops = l ++ MetalOp.minit true :: r ∧ MetalOp.mshutdown ∉ r) ∨
        (st = true ∧ MetalOp.mshutdown ∉ ops)) := by
  intro ops
  induction ops with
  | nil =>
    intro st
    constructor
    · intro h
      right
      refine ⟨h, ?_⟩
      simp
    · rintro (⟨l, r, hlr, _⟩ | ⟨h, _⟩)
      · cases l <;> simp at hlr
      · exact h
  | cons op ops ih =>
    intro st
    cases op with
    | minit ok =>
      cases ok with
      | true =>
        show metalRun true ops = true ↔ _
        rw [ih true]
        constructor
        · rintro (⟨l, r, hlr, hr⟩ | ⟨_, hops⟩)
          · exact Or.inl ⟨MetalOp.minit true :: l, r, by simp [hlr], hr⟩
          · exact Or.inl ⟨[], ops, rfl, hops⟩
        · rintro (⟨l, r, hlr, hr⟩ | ⟨_, hops⟩)
          · cases l with
            | nil =>
              simp only [List.nil_append, List.cons.injEq, true_and] at hlr
              right
              refine ⟨rfl, ?_⟩
              rw [hlr]
              exact hr
            | cons o l' =>
              simp only [List.cons_append, List.cons.injEq] at hlr
              exact Or.inl ⟨l', r, hlr.2, hr⟩
          · right
            exact ⟨rfl, fun hmem => hops (List.mem_cons_of_mem _ hmem)⟩
      | false =>
        show metalRun st ops = true ↔ _
        rw [ih st]
        constructor
        · rintro (⟨l, r, hlr, hr⟩ | ⟨hst, hops⟩)
          · exact Or.inl ⟨MetalOp.minit false :: l, r, by simp [hlr], hr⟩
          · right
            refine ⟨hst, ?_⟩
            intro hmem
            rcases List.mem_cons.mp hmem with hmem | hmem
            · exact MetalOp.noConfusion hmem
            · exact hops hmem
        · rintro (⟨l, r, hlr, hr⟩ | ⟨hst, hops⟩)
          · cases l with
            | nil => simp at hlr
            | cons o l' =>
              simp only [List.cons_append, List.cons.injEq] at hlr
              exact Or.inl ⟨l', r, hlr.2, hr⟩
          · exact Or.inr ⟨hst, fun hmem => hops (List.mem_cons_of_mem _ hmem)⟩
    | mshutdown =>
      show metalRun false ops = true ↔ _
      rw [ih false]
      constructor
      · rintro (⟨l, r, hlr, hr⟩ | ⟨hst, _⟩)
        · exact Or.inl ⟨MetalOp.mshutdown :: l, r, by simp [hlr], hr⟩
        · exact absurd hst (by simp)
      · rintro (⟨l, r, hlr, hr⟩ | ⟨_, hops⟩)
        · cases l with
          | nil => simp at hlr
          | cons o l' =>
            simp only [List.cons_append, List.cons.injEq] at hlr
            exact Or.inl ⟨l', r, hlr.2, hr⟩
        · exact absurd (List.mem_cons_self _ _) hops

/-! The claims. -/

/-- C1: for every session and every interleaving of feed and get calls, the
concatenation of the successive `vox_stream_get` results, followed by the
tokens still queued, equals in order the total committed token stream for
the audio fed so far; in particular each committed token is delivered to
the host exactly once and in queue order. -/
theorem vox_C1_token_monotonicity {σ : Type} (d : Decoder σ) (rate : Nat)
    (cap iv : ℚ) (ops : List Op) (h : ∀ op ∈ ops, op.isFeedGet = true) :
    (runOps d (vox_stream_init d rate cap iv) ops).2 ++
      (runOps d (vox_stream_init d rate cap iv) ops).1.queue =
    committedOf d (windowOf rate iv) (fedOf ops) := by
  have h2 := coherent_runOps d (windowOf rate iv) ops [] (vox_stream_init d rate cap iv)
    h (coherent_init d rate cap iv)
  have hq := h2.1.2.2.2.2
  rw [List.nil_append] at hq
  rw [h2.2] at hq
  simpa using hq

theorem vox_C1_witness :
    (runOps dEx (vox_stream_init dEx 16000 4 1) [Op.feed [1, 2, 3], Op.get 2]).2 ++
      (runOps dEx (vox_stream_init dEx 16000 4 1) [Op.feed [1, 2, 3], Op.get 2]).1.queue =
    committedOf dEx (windowOf 16000 1) (fedOf [Op.feed [1, 2, 3], Op.get 2]) :=
  vox_C1_token_monotonicity dEx 16000 4 1 [Op.feed [1, 2, 3], Op.get 2] (by decide)

/-- C2: once a token has appeared in the output of some `vox_stream_get`
call, no later call on that session retracts or reorders it: the tokens
returned by any trace are a prefix of the tokens returned by any extension
of that trace. -/
theorem vox_C2_no_retraction {σ : Type} (d : Decoder σ) (s : Session σ)
    (ops ops' : List Op) :
    (runOps d s ops).2 <+: (runOps d s (ops ++ ops')).2 := by
  rw [runOps_append]
  exact ⟨(runOps d (runOps d s ops).1 ops').2, rfl⟩

/-- C3: after `vox_stream_finish`, one `vox_stream_get` call asking for the
whole queue drains it to empty, and from then on every further sequence of
`vox_stream_get` calls returns no tokens and leaves the queue empty
forever. -/
theorem vox_C3_finish_terminates {σ : Type} (d : Decoder σ) (s : Session σ)
    (h : s.st ≠ .Freed) :
    (vox_stream_get (vox_stream_finish d s)
        ((vox_stream_finish d s).queue.length : Int)).2.queue = [] ∧
    ∀ maxs : List Int,
      (runOps d (vox_stream_get (vox_stream_finish d s)
          ((vox_stream_finish d s).queue.length : Int)).2 (maxs.map Op.get)).2 = [] ∧
      (runOps d (vox_stream_get (vox_stream_finish d s)
          ((vox_stream_finish d s).queue.length : Int)).2 (maxs.map Op.get)).1.queue
        = [] := by
  have hfin : (vox_stream_finish d s).st ≠ .Freed := vox_stream_finish_st_ne_freed d s h
  have hq : (vox_stream_get (vox_stream_finish d s)
      ((vox_stream_finish d s).queue.length : Int)).2.queue = [] := by
    rw [vox_stream_get_queue _ _ hfin]
    simp
  refine ⟨hq, fun maxs => ?_⟩
  have h2 := runOps_gets_empty d maxs _ hq
  exact ⟨h2.2, h2.1⟩

theorem vox_C3_witness :
    (vox_stream_get (vox_stream_finish dEx sDrainedEx)
        ((vox_stream_finish dEx sDrainedEx).queue.length : Int)).2.queue = [] ∧
    (runOps dEx (vox_stream_get (vox_stream_finish dEx sDrainedEx)
        ((vox_stream_finish dEx sDrainedEx).queue.length : Int)).2
      ([5, 0].map Op.get)).2 = [] :=
  ⟨(vox_C3_finish_terminates dEx sDrainedEx (by decide)).1,
   ((vox_C3_finish_terminates dEx sDrainedEx (by decide)).2 [5, 0]).1⟩

/-- C4: for a fixed model context and a fixed total sequence of fed
samples, every partition of that sequence into `vox_stream_feed` calls
yields the identical committed token sequence after finish as feeding the
whole stream in one call (the 48000-samples-as-one-call versus
48-calls-of-1000 scenario is the instance `chunks = 48 chunks of 1000`). -/
theorem vox_C4_determinism {σ : Type} (d : Decoder σ) (rate : Nat) (cap iv : ℚ)
    (chunks : List (List Sample)) :
    (runOps d (vox_stream_init d rate cap iv)
        (chunks.map Op.feed ++ [Op.finish])).1.queue =
    (runOps d (vox_stream_init d rate cap iv)
        [Op.feed chunks.flatten, Op.finish]).1.queue := by
  rw [feeds_then_finish_queue d rate cap iv chunks]
  have h2 : ([Op.feed chunks.flatten, Op.finish] : List Op)
      = [chunks.flatten].map Op.feed ++ [Op.finish] := rfl
  rw [h2, feeds_then_finish_queue d rate cap iv [chunks.flatten]]
  simp

/-- C5: `vox_stream_finish` is idempotent; it is a no-op in every non-Open
state; and from Open it factors through the Open → Sealed transition
(`sealOpen`) followed by the Sealed → Drained transition, which the
synchronous chunker completes within the call, leaving the session
Drained. -/
theorem vox_C5_finish_idempotent {σ : Type} (d : Decoder σ) (s : Session σ) :
    vox_stream_finish d (vox_stream_finish d s) = vox_stream_finish d s ∧
    (s.st ≠ .Open → vox_stream_finish d s = s) ∧
    (s.st = .Open →
      (sealOpen d s).st = .Sealed ∧
      vox_stream_finish d s = finishDrain (sealOpen d s) ∧
      (vox_stream_finish d s).st = .Drained) := by
  refine ⟨vox_stream_finish_idem d s, vox_stream_finish_not_open d s, ?_⟩
  intro hst
  refine ⟨rfl, ?_, ?_⟩
  · unfold vox_stream_finish
    rw [if_pos hst]
  · rw [vox_stream_finish_open d s hst]

theorem vox_C5_witness :
    vox_stream_finish dEx (vox_stream_finish dEx sOpenEx) = vox_stream_finish dEx sOpenEx ∧
    (vox_stream_finish dEx sOpenEx).st = .Drained ∧
    vox_stream_finish dEx sSealedEx = sSealedEx :=
  ⟨(vox_C5_finish_idempotent dEx sOpenEx).1,
   ((vox_C5_finish_idempotent dEx sOpenEx).2.2 rfl).2.2,
   (vox_C5_finish_idempotent dEx sSealedEx).2.1 (by decide)⟩

/-- C6: calling `vox_stream_finish` on a freshly initialized session before
any feed is legal and yields a Drained session with an empty token queue
and no error raised; every subsequent `vox_stream_get`, for any max,
returns no tokens and leaves the session unchanged. -/
theorem vox_C6_finish_before_feed {σ : Type} (d : Decoder σ) (rate : Nat)
    (cap iv : ℚ) :
    (vox_stream_finish d (vox_stream_init d rate cap iv)).st = .Drained ∧
    (vox_stream_finish d (vox_stream_init d rate cap iv)).queue = [] ∧
    (vox_stream_finish d (vox_stream_init d rate cap iv)).errFlag = false ∧
    ∀ m : Int,
      vox_stream_get (vox_stream_finish d (vox_stream_init d rate cap iv)) m =
        ([], vox_stream_finish d (vox_stream_init d rate cap iv)) := by
  have h6 := finish_coherent d (windowOf rate iv) [] (vox_stream_init d rate cap iv)
    (coherent_init d rate cap iv)
  have hfin : finalTokensOf d (windowOf rate iv) [] = [] := rfl
  have hq : (vox_stream_finish d (vox_stream_init d rate cap iv)).queue = [] := by
    have h7 := h6.2.1
    rw [hfin] at h7
    exact List.append_eq_nil.mp h7 |>.2
  refine ⟨h6.1, hq, ?_, fun m => vox_stream_get_empty _ hq m⟩
  rw [vox_stream_finish_open d (vox_stream_init d rate cap iv) rfl]
  rfl

theorem vox_C6_witness :
    (vox_stream_finish dEx sEx).st = .Drained ∧
    (vox_stream_finish dEx sEx).queue = [] ∧
    vox_stream_get (vox_stream_finish dEx sEx) 8 = ([], vox_stream_finish dEx sEx) :=
  ⟨(vox_C6_finish_before_feed dEx 16000 4 1).1,
   (vox_C6_finish_before_feed dEx 16000 4 1).2.1,
   (vox_C6_finish_before_feed dEx 16000 4 1).2.2.2 8⟩

/-- C7: `vox_stream_feed` mutates session state only when the session is
Open and n > 0: with n = 0 the call is a no-op in every state; in Sealed or
Drained a nonempty feed only sets the error flag (ring, decoder state,
queue and delivered history unchanged); in Failed the call is ignored
entirely. -/
theorem vox_C7_feed_state_guards {σ : Type} (d : Decoder σ) (s : Session σ)
    (xs : List Sample) :
    vox_stream_feed d s [] = s ∧
    ((s.st = .Sealed ∨ s.st = .Drained) → xs ≠ [] →
      vox_stream_feed d s xs = { s with errFlag := true }) ∧
    (s.st = .Failed → vox_stream_feed d s xs = s) := by
  refine ⟨vox_stream_feed_nil d s, ?_, ?_⟩
  · intro hst hx
    unfold vox_stream_feed
    rw [if_neg hx]
    rcases hst with h | h <;> rw [h]
  · intro hst
    unfold vox_stream_feed
    split
    · rfl
    · rw [hst]

theorem vox_C7_witness :
    vox_stream_feed dEx sOpenEx [] = sOpenEx ∧
    vox_stream_feed dEx sSealedEx [7] = { sSealedEx with errFlag := true } ∧
    vox_stream_feed dEx sFailedEx [7] = sFailedEx :=
  ⟨(vox_C7_feed_state_guards dEx sOpenEx []).1,
   (vox_C7_feed_state_guards dEx sSealedEx [7]).2.1 (Or.inl rfl) (by decide),
   (vox_C7_feed_state_guards dEx sFailedEx [7]).2.2 rfl⟩

/-- C8: `vox_set_processing_interval` with a value ≤ 0 is rejected with
ConfigError and leaves the session unchanged; a value exceeding the ring's
capacity in seconds, on an otherwise valid call, is clamped to that upper
bound (the documented policy) and accepted. -/
theorem vox_C8_interval_bounds {σ : Type} (s : Session σ) (x : ℚ) :
    (x ≤ 0 → vox_set_processing_interval s x = (s, some VoxError.ConfigError)) ∧
    (0 < x → s.capacitySeconds < x → s.st = .Open → s.fedAny = false →
      (vox_set_processing_interval s x).1.interval = s.capacitySeconds ∧
      (vox_set_processing_interval s x).2 = none) := by
  constructor
  · intro hx
    unfold vox_set_processing_interval
    rw [if_pos hx]
  · intro hx hcap hst hfed
    unfold vox_set_processing_interval
    rw [if_neg (not_le.mpr hx), if_pos (And.intro hst hfed)]
    constructor
    · show min x s.capacitySeconds = s.capacitySeconds
      exact min_eq_right hcap.le
    · rfl

theorem vox_C8_witness :
    vox_set_processing_interval sEx (-1) = (sEx, some VoxError.ConfigError) ∧
    (vox_set_processing_interval sEx 100).1.interval = sEx.capacitySeconds :=
  ⟨(vox_C8_interval_bounds sEx (-1)).1 (by norm_num),
   ((vox_C8_interval_bounds sEx 100).2 (by norm_num)
      (show (4 : ℚ) < 100 by norm_num) rfl rfl).1⟩

/-- C9: the GPU lifecycle is process-wide state: `vox_metal_init` returns 0
and brings the subsystem up on success, or a negative error code leaving
the state unchanged on failure; `vox_metal_available` is non-zero after a
trace of lifecycle calls iff some successful init is not followed by any
shutdown; and `vox_metal_shutdown` is idempotent. -/
theorem vox_C9_metal_lifecycle (ops : List MetalOp) (ok st : Bool) :
    ((ok = true → vox_metal_init ok st = (0, true)) ∧
     (ok = false → (vox_metal_init ok st).1 < 0 ∧ (vox_metal_init ok st).2 = st)) ∧
    (vox_metal_available (metalRun false ops) ≠ 0 ↔
      (∃ l r, ops = l ++ MetalOp.minit true :: r ∧ MetalOp.mshutdown ∉ r)) ∧
    vox_metal_shutdown (vox_metal_shutdown st) = vox_metal_shutdown st := by
  refine ⟨⟨?_, ?_⟩, ?_, rfl⟩
  · intro h
    subst h
    rfl
  · intro h
    subst h
    exact ⟨show (-1 : Int) < 0 by decide, rfl⟩
  · have h1 : vox_metal_available (metalRun false ops) ≠ 0 ↔
        metalRun false ops = true := by
      unfold vox_metal_available
      cases metalRun false ops <;> simp
    rw [h1, metalRun_spec ops false]
    constructor
    · rintro (h | ⟨hc, _⟩)
      · exact h
      · exact absurd hc (by simp)
    · intro h
      exact Or.inl h

theorem vox_C9_witness :
    vox_metal_available (metalRun false [MetalOp.minit true]) ≠ 0 ∧
    vox_metal_shutdown (vox_metal_shutdown true) = vox_metal_shutdown true :=
  ⟨(vox_C9_metal_lifecycle [MetalOp.minit true] true true).2.1.mpr
      ⟨[], [], rfl, by decide⟩,
   (vox_C9_metal_lifecycle [] true true).2.2⟩

/-- C10: for every session in any non-Freed state, `vox_stream_get` with a
non-positive max (representable because max is a signed int at the ABI)
returns no tokens and leaves the session, its token queue included,
entirely unchanged. -/
theorem vox_C10_get_nonpositive {σ : Type} (s : Session σ) (m : Int)
    (hs : s.st ≠ .Freed) (hm : m ≤ 0) :
    vox_stream_get s m = ([], s) := by
  unfold vox_stream_get
  rw [if_neg hs, Int.toNat_of_nonpos hm]
  simp only [List.take_zero, List.drop_zero, List.append_nil]

theorem vox_C10_witness :
    vox_stream_get sDrainedEx (-3) = ([], sDrainedEx) :=
  vox_C10_get_nonpositive sDrainedEx (-3) (by decide) (by decide)
